import Mathlib

/-!
Shallow embedding of the Modbus RTU bridge core (`modbus_bridge.py`):
frame decoding (`decode_modbus_rtu_frame`), register mapping
(`map_registers`) and float32 reconstruction (`regs_to_float32`).

Modelling conventions:
* a Python `bytes` payload is a `List Nat` (each element intended `< 256`);
* Python integer arithmetic is `Nat` arithmetic, with bitwise operators
  kept as bitwise operators (`<<<`, `>>>`, `|||`, `&&&`);
* Python `float` values are modelled over `ℚ`, with IEEE-754 binary32 bit
  patterns decoded exactly and `inf`/`nan` as explicit constructors; the
  rounding of Python float multiplication is abstracted as exact rational
  arithmetic (no claim here depends on rounding);
* a Python `dict` built by item assignment is an association list updated
  in place (`dictInsert`), matching dict key-order semantics;
* configuration objects follow the documented schema: a unit entry holds
  at most the keys `name` and `functions`, a function entry at most
  `registers_by_index`, so a unit or function dict is falsy exactly when
  all of its schema keys are absent; a register definition holds the keys
  the code reads, each `Option`-valued since `reg_def["index"]` and
  `reg_def["name"]` raise `KeyError` when absent;
* a Python `raise` is `Except.error`.
-/

namespace ModbusBridge

/-- The decoded wire structure returned by `decode_modbus_rtu_frame`. -/
structure RawFrame where
  unit_id : Nat
  function : Nat
  registers : List Nat
  crc_ok : Bool
deriving DecidableEq, Repr

/-- The two `ValueError`s the decoder can raise. -/
inductive DecodeErr where
  | frameTooShort
  | oddByteCount
deriving DecidableEq, Repr

/-- The register-extraction loop: `for i in range(0, len(data), 2):
reg = (data[i] << 8) | data[i + 1]`.  Only ever called on even-length
data; a trailing odd byte (unreachable after the evenness check) is
dropped. -/
def regsOfData : List Nat → List Nat
  | [] => []
  | [_] => []
  | b1 :: b2 :: rest => ((b1 <<< 8) ||| b2) :: regsOfData rest

/-- `decode_modbus_rtu_frame(payload)`: layout
`[addr][func][byte_count][data...][crc_lo][crc_hi]`.  The data slice is
`payload[3:3 + byte_count]` (Python slicing truncates at the end of the
list), the evenness check is on the length of that slice, and the CRC
bytes are read but not validated (`crc_ok` is always `true`). -/
def decode_modbus_rtu_frame (payload : List Nat) : Except DecodeErr RawFrame :=
  if payload.length < 5 then .error .frameTooShort
  else
    let unit_id := payload.getD 0 0
    let function := payload.getD 1 0
    let byte_count := payload.getD 2 0
    let data := (payload.drop 3).take byte_count
    if data.length % 2 ≠ 0 then .error .oddByteCount
    else .ok { unit_id := unit_id, function := function,
               registers := regsOfData data, crc_ok := true }

/-- Big-endian encoding of a list of 16-bit register values, two bytes
per register, as in the round-trip property of the specification. -/
def encodeRegisters : List Nat → List Nat
  | [] => []
  | r :: rest => r / 256 :: r % 256 :: encodeRegisters rest

theorem regsOfData_length : ∀ l : List Nat, (regsOfData l).length = l.length / 2
  | [] => rfl
  | [_] => by simp [regsOfData]
  | _ :: _ :: rest => by
    simp only [regsOfData, List.length_cons, regsOfData_length rest]
    omega

theorem encodeRegisters_length :
    ∀ regs : List Nat, (encodeRegisters regs).length = 2 * regs.length
  | [] => rfl
  | _ :: rest => by
    simp only [encodeRegisters, List.length_cons, encodeRegisters_length rest]
    omega

theorem recombine_bytes (r : Nat) : ((r / 256) <<< 8) ||| r % 256 = r := by
  have hdiv : r / 256 = r >>> 8 := by
    rw [Nat.shiftRight_eq_div_pow]
  have h256 : (256 : Nat) = 2 ^ 8 := by norm_num
  rw [hdiv]
  apply Nat.eq_of_testBit_eq
  intro i
  rw [Nat.testBit_lor, Nat.testBit_shiftLeft]
  rcases Nat.lt_or_ge i 8 with h | h
  · rw [h256, Nat.testBit_mod_two_pow]
    simp [Nat.not_le.mpr h, h]
  · rw [h256, Nat.testBit_mod_two_pow, Nat.testBit_shiftRight]
    have h8 : 8 + (i - 8) = i := by omega
    simp [h, Nat.not_lt.mpr h, h8]

theorem regsOfData_encodeRegisters :
    ∀ regs : List Nat, regsOfData (encodeRegisters regs) = regs
  | [] => rfl
  | r :: rest => by
    simp only [encodeRegisters, regsOfData, regsOfData_encodeRegisters rest,
      recombine_bytes]

theorem regsOfData_bound :
    ∀ l : List Nat, (∀ b ∈ l, b < 256) → ∀ r ∈ regsOfData l, r < 65536
  | [], _, r, hr => by simp [regsOfData] at hr
  | [_], _, r, hr => by simp [regsOfData] at hr
  | b1 :: b2 :: rest, hb, r, hr => by
    simp only [regsOfData, List.mem_cons] at hr
    rcases hr with h | h
    · subst h
      have h1 : b1 < 256 := hb b1 (by simp)
      have h2 : b2 < 256 := hb b2 (by simp)
      have hs : b1 <<< 8 < 2 ^ 16 := by
        rw [Nat.shiftLeft_eq]
        norm_num
        omega
      have : b1 <<< 8 ||| b2 < 2 ^ 16 :=
        Nat.or_lt_two_pow hs (by norm_num; omega)
      norm_num at this
      omega
    · exact regsOfData_bound rest (fun b hbm => hb b (by simp [hbm])) r h

theorem decode_of_length_ge (p : List Nat) (h5 : 5 ≤ p.length) :
    decode_modbus_rtu_frame p =
      if ((p.drop 3).take (p.getD 2 0)).length % 2 ≠ 0 then .error .oddByteCount
      else .ok { unit_id := p.getD 0 0, function := p.getD 1 0,
                 registers := regsOfData ((p.drop 3).take (p.getD 2 0)),
                 crc_ok := true } := by
  unfold decode_modbus_rtu_frame
  rw [if_neg (by omega : ¬ p.length < 5)]

theorem data_slice_length (p : List Nat) :
    ((p.drop 3).take (p.getD 2 0)).length = min (p.getD 2 0) (p.length - 3) := by
  rw [List.length_take, List.length_drop]

/-- C1 counterexample: the payload `[0, 0, 3, 0, 0]` has length 5 and an
odd declared byte count (byte 2 is 3), yet decoding succeeds — the data
slice `payload[3:6]` truncates to the 2 available bytes, which is even,
so no `OddByteCount` is raised. -/
theorem c1_odd_byte_count_counterexample :
    5 ≤ ([0, 0, 3, 0, 0] : List Nat).length ∧
    ([0, 0, 3, 0, 0] : List Nat).getD 2 0 % 2 = 1 ∧
    decode_modbus_rtu_frame [0, 0, 3, 0, 0] =
      .ok { unit_id := 0, function := 0, registers := [0], crc_ok := true } := by
  refine ⟨by decide, by decide, rfl⟩

/-- C1 (amended): for a payload of length at least 5, decode raises
`OddByteCount` exactly when the extracted data slice
`payload[3:3 + byte_count]` has odd length, i.e. when
`min byte_count (len - 3)` is odd; when the payload holds all declared
data bytes this coincides with the byte count being odd, but a truncated
slice of even length decodes without the error. -/
theorem c1_odd_byte_count (p : List Nat) (h5 : 5 ≤ p.length) :
    decode_modbus_rtu_frame p = .error .oddByteCount ↔
      min (p.getD 2 0) (p.length - 3) % 2 = 1 := by
  have hlen := data_slice_length p
  rw [decode_of_length_ge p h5]
  by_cases hodd : min (p.getD 2 0) (p.length - 3) % 2 = 1
  · rw [if_pos (by rw [hlen]; omega)]
    exact iff_of_true rfl hodd
  · rw [if_neg (by rw [hlen]; omega)]
    exact iff_of_false (by simp) hodd

/-- C1 witness: a payload of length 8 with byte count 3 (all declared
data bytes present) does raise `OddByteCount`. -/
theorem c1_odd_byte_count_witness :
    5 ≤ ([0, 0, 3, 0, 0, 0, 0, 0] : List Nat).length ∧
    decode_modbus_rtu_frame [0, 0, 3, 0, 0, 0, 0, 0] = .error .oddByteCount :=
  ⟨by decide, (c1_odd_byte_count [0, 0, 3, 0, 0, 0, 0, 0] (by decide)).mpr (by decide)⟩

/-- C2 counterexample: the payload `[0, 0, 4, 0, 0]` declares byte count
4 but only 2 data bytes are present; decoding succeeds (the truncated
slice has even length) and returns 1 register, not `4 / 2 = 2`. -/
theorem c2_registers_length_counterexample :
    decode_modbus_rtu_frame [0, 0, 4, 0, 0] =
      .ok { unit_id := 0, function := 0, registers := [0], crc_ok := true } ∧
    ([0] : List Nat).length ≠ ([0, 0, 4, 0, 0] : List Nat).getD 2 0 / 2 :=
  ⟨rfl, by decide⟩

/-- C2 (amended): for every payload on which decode succeeds, the length
of `registers` equals `min byte_count (len - 3) / 2` — the declared byte
count divided by two whenever the payload actually holds all declared
data bytes, but smaller when the payload is shorter, since the data
slice truncates. -/
theorem c2_registers_length (p : List Nat) (f : RawFrame)
    (h : decode_modbus_rtu_frame p = .ok f) :
    f.registers.length = min (p.getD 2 0) (p.length - 3) / 2 ∧
    (3 + p.getD 2 0 ≤ p.length → f.registers.length = p.getD 2 0 / 2) := by
  have h5 : 5 ≤ p.length := by
    by_contra h5
    rw [decode_modbus_rtu_frame, if_pos (by omega)] at h
    exact absurd h (by simp)
  rw [decode_of_length_ge p h5] at h
  by_cases hodd : ((p.drop 3).take (p.getD 2 0)).length % 2 ≠ 0
  · rw [if_pos hodd] at h
    exact absurd h (by simp)
  · rw [if_neg hodd] at h
    have hf : f.registers = regsOfData ((p.drop 3).take (p.getD 2 0)) := by
      cases h
      rfl
    have hmin := data_slice_length p
    constructor
    · rw [hf, regsOfData_length, hmin]
    · intro hfull
      rw [hf, regsOfData_length, hmin]
      omega

/-- C2 witness: on the concrete truncated payload `[0, 0, 4, 0, 0]` the
register count is `min 4 2 / 2 = 1`. -/
theorem c2_registers_length_witness :
    (RawFrame.mk 0 0 [0] true).registers.length =
      min (([0, 0, 4, 0, 0] : List Nat).getD 2 0)
        (([0, 0, 4, 0, 0] : List Nat).length - 3) / 2 :=
  (c2_registers_length [0, 0, 4, 0, 0] (RawFrame.mk 0 0 [0] true) rfl).1

/-- C3: round-trip register packing.  Building a payload with byte 0 the
unit id, byte 1 the function code, byte 2 equal to `2 * n`, followed by
the `n` register values as big-endian 2-byte words and two trailing CRC
bytes, and decoding it, returns exactly the original register sequence
together with the given unit id and function code. -/
theorem c3_round_trip (uid fc c0 c1 : Nat) (regs : List Nat)
    (_h : ∀ r ∈ regs, r < 65536) :
    decode_modbus_rtu_frame
        (uid :: fc :: 2 * regs.length :: (encodeRegisters regs ++ [c0, c1])) =
      .ok { unit_id := uid, function := fc, registers := regs, crc_ok := true } := by
  have henc := encodeRegisters_length regs
  have h5 : 5 ≤ (uid :: fc :: 2 * regs.length ::
      (encodeRegisters regs ++ [c0, c1])).length := by
    simp
  rw [decode_of_length_ge _ h5]
  have hget : (uid :: fc :: 2 * regs.length ::
      (encodeRegisters regs ++ [c0, c1])).getD 2 0 = 2 * regs.length := rfl
  have hdrop : (uid :: fc :: 2 * regs.length ::
      (encodeRegisters regs ++ [c0, c1])).drop 3 = encodeRegisters regs ++ [c0, c1] := rfl
  have htake : (encodeRegisters regs ++ [c0, c1]).take (2 * regs.length) =
      encodeRegisters regs := by
    rw [← henc, List.take_left]
  rw [hget, hdrop, htake, if_neg (by omega)]
  rw [regsOfData_encodeRegisters]
  rfl

/-- C3 witness: round trip on the concrete sequence `[0xABCD, 0x1234]`. -/
theorem c3_round_trip_witness :
    decode_modbus_rtu_frame
        (1 :: 3 :: 2 * ([0xABCD, 0x1234] : List Nat).length ::
          (encodeRegisters [0xABCD, 0x1234] ++ [7, 9])) =
      .ok { unit_id := 1, function := 3, registers := [0xABCD, 0x1234],
            crc_ok := true } :=
  c3_round_trip 1 3 7 9 [0xABCD, 0x1234] (by decide)

/-- C6: every payload shorter than 5 bytes is rejected with
`FrameTooShort`, and the length-5 payload `[1, 3, 0, 0, 0]` (byte count
0) decodes successfully to a frame with zero registers. -/
theorem c6_short_frame (p : List Nat) (h : p.length < 5) :
    decode_modbus_rtu_frame p = .error .frameTooShort ∧
    decode_modbus_rtu_frame [1, 3, 0, 0, 0] =
      .ok { unit_id := 1, function := 3, registers := [], crc_ok := true } := by
  constructor
  · rw [decode_modbus_rtu_frame, if_pos h]
  · rfl

/-- C6 witness: the length-4 payload `[0, 0, 0, 0]` is rejected. -/
theorem c6_short_frame_witness :
    decode_modbus_rtu_frame [0, 0, 0, 0] = .error .frameTooShort ∧
    decode_modbus_rtu_frame [1, 3, 0, 0, 0] =
      .ok { unit_id := 1, function := 3, registers := [], crc_ok := true } :=
  c6_short_frame [0, 0, 0, 0] (by decide)

/-- C9: for every payload of bytes (each `< 256`) on which decode
succeeds, every decoded register is an unsigned 16-bit value: each
register is `(data[i] <<< 8) ||| data[i + 1]` for two bytes of the
payload, hence below 65536. -/
theorem c9_register_bound (p : List Nat) (f : RawFrame)
    (hbytes : ∀ b ∈ p, b < 256) (h : decode_modbus_rtu_frame p = .ok f) :
    ∀ r ∈ f.registers, r < 65536 := by
  have h5 : 5 ≤ p.length := by
    by_contra h5
    rw [decode_modbus_rtu_frame, if_pos (by omega)] at h
    exact absurd h (by simp)
  rw [decode_of_length_ge p h5] at h
  by_cases hodd : ((p.drop 3).take (p.getD 2 0)).length % 2 ≠ 0
  · rw [if_pos hodd] at h
    exact absurd h (by simp)
  · rw [if_neg hodd] at h
    have hf : f.registers = regsOfData ((p.drop 3).take (p.getD 2 0)) := by
      cases h
      rfl
    rw [hf]
    apply regsOfData_bound
    intro b hb
    exact hbytes b (List.mem_of_mem_drop (List.mem_of_mem_take hb))

/-- C9 witness: the concrete payload `[1, 3, 2, 0xAB, 0xCD, 0, 0]`
decodes to the single register `0xABCD`, which is below 65536. -/
theorem c9_register_bound_witness : (0xABCD : Nat) < 65536 :=
  c9_register_bound [1, 3, 2, 0xAB, 0xCD, 0, 0] (RawFrame.mk 1 3 [0xABCD] true)
    (by decide) rfl 0xABCD (by decide)

/-- A Python float value as produced by the mapper: a finite value
(exact rational), a signed infinity, or a NaN. -/
inductive PyVal where
  | num (q : ℚ)
  | inf (neg : Bool)
  | nan
deriving DecidableEq, Repr

/-- Multiplication of a float value by a (finite) scale factor, as in
`value = fval * scale`; finite arithmetic is exact, `inf * 0` is NaN and
`inf` otherwise keeps the product sign, `nan` absorbs. -/
def PyVal.mulScale : PyVal → ℚ → PyVal
  | .num x, s => .num (x * s)
  | .inf neg, s => if s = 0 then .nan else .inf (neg != decide (s < 0))
  | .nan, _ => .nan

/-- Big-endian value of a byte string, as `struct.unpack` reads its
input: the first byte is most significant. -/
def bytesToBitsBE (l : List Nat) : Nat :=
  l.foldl (fun acc b => acc * 256 + b) 0

/-- Exact interpretation of a 32-bit pattern as an IEEE-754 binary32
value, the semantics of `struct.unpack(">f", data)[0]`: sign bit 31,
biased exponent bits 30–23, mantissa bits 22–0; exponent 255 encodes
infinity (zero mantissa) or NaN, exponent 0 the subnormals. -/
def float32OfBits (bits : Nat) : PyVal :=
  let s : Nat := bits / 2 ^ 31 % 2
  let e : Nat := bits / 2 ^ 23 % 2 ^ 8
  let m : Nat := bits % 2 ^ 23
  if e = 255 then
    if m = 0 then .inf (s = 1) else .nan
  else
    let sign : ℚ := if s = 1 then -1 else 1
    if e = 0 then .num (sign * (m : ℚ) / 2 ^ 149)
    else .num (sign * (2 ^ 23 + (m : ℚ)) * 2 ^ e / 2 ^ 150)

/-- `regs_to_float32(reg_hi, reg_lo, word_order)`: split each register
into high and low bytes, reorder the four bytes according to
`word_order` (unknown orders fall back to `"ABCD"`), and interpret the
result as a big-endian IEEE-754 binary32. -/
def regs_to_float32 (reg_hi reg_lo : Nat) (word_order : String) : PyVal :=
  let a := (reg_hi >>> 8) &&& 0xFF
  let b := reg_hi &&& 0xFF
  let c := (reg_lo >>> 8) &&& 0xFF
  let d := reg_lo &&& 0xFF
  let data :=
    if word_order = "DCBA" then [d, c, b, a]
    else if word_order = "BADC" then [b, a, d, c]
    else if word_order = "CDAB" then [c, d, a, b]
    else [a, b, c, d]
  float32OfBits (bytesToBitsBE data)

/-- A `RegisterDefinition` from the configuration.  The code reads
`reg_def["index"]` and `reg_def["name"]` (a `KeyError` if absent, hence
`Option` with no default) and `reg_def.get(...)` for the rest. -/
structure RegDef where
  index : Option Nat := none
  name : Option String := none
  scale : Option ℚ := none
  datatype : Option String := none
  word_order : Option String := none
deriving DecidableEq, Repr

/-- A function entry `{registers_by_index: [...]}`; under the documented
schema this dict is falsy exactly when its only key is absent. -/
structure FuncCfg where
  registers_by_index : Option (List RegDef) := none
deriving DecidableEq, Repr

def FuncCfg.falsy (f : FuncCfg) : Bool :=
  f.registers_by_index.isNone

/-- A unit entry `{name, functions}`; under the documented schema this
dict is falsy exactly when both keys are absent. -/
structure UnitCfg where
  name : Option String := none
  functions : Option (List (String × FuncCfg)) := none
deriving DecidableEq, Repr

def UnitCfg.falsy (u : UnitCfg) : Bool :=
  u.name.isNone && u.functions.isNone

/-- The `modbus.units` table of the configuration. -/
structure Config where
  units : List (String × UnitCfg) := []
deriving DecidableEq, Repr

/-- `dict.get(key)`: first (unique) binding of the key, if any. -/
def lookupStr {α : Type} : List (String × α) → String → Option α
  | [], _ => none
  | p :: t, key => if p.1 = key then some p.2 else lookupStr t key

/-- The `KeyError`s `map_registers` can raise: a register definition
missing its required `index` or `name` field. -/
inductive MapErr where
  | missingIndex
  | missingName
deriving DecidableEq, Repr

/-- One iteration of the mapping loop over a `RegisterDefinition`:
`.ok none` means the definition is skipped (`continue`), `.ok (some
(name, value))` that `mapped[name] = value` is executed, `.error` a
`KeyError`.  Field access order follows the code: `reg_def["index"]`
first, then the range check, then `reg_def["name"]`, then the datatype
dispatch. -/
def processDef (rd : RegDef) (registers : List Nat) :
    Except MapErr (Option (String × PyVal)) :=
  match rd.index with
  | none => .error .missingIndex
  | some idx =>
    if registers.length ≤ idx then .ok none
    else
      let raw_val := registers.getD idx 0
      let scale := rd.scale.getD 1
      match rd.name with
      | none => .error .missingName
      | some name =>
        let datatype := rd.datatype.getD "uint16"
        let word_order := rd.word_order.getD "ABCD"
        if datatype = "uint16" then
          .ok (some (name, PyVal.mulScale (.num raw_val) scale))
        else if datatype = "float32" then
          if registers.length ≤ idx + 1 then .ok none
          else
            let reg_hi := registers.getD idx 0
            let reg_lo := registers.getD (idx + 1) 0
            .ok (some (name, PyVal.mulScale (regs_to_float32 reg_hi reg_lo word_order) scale))
        else
          .ok (some (name, PyVal.mulScale (.num raw_val) scale))

/-- Python dict item assignment `mapped[name] = value`: overwrite the
existing binding in place, or append a new one. -/
def dictInsert (m : List (String × PyVal)) (k : String) (v : PyVal) :
    List (String × PyVal) :=
  if m.any (fun p => p.1 = k) then
    m.map (fun p => if p.1 = k then (k, v) else p)
  else m ++ [(k, v)]

/-- The `for reg_def in reg_defs` loop of `map_registers`, accumulating
the `mapped` dict. -/
def runDefs (registers : List Nat) :
    List RegDef → List (String × PyVal) → Except MapErr (List (String × PyVal))
  | [], m => .ok m
  | d :: ds, m =>
    match processDef d registers with
    | .error e => .error e
    | .ok none => runDefs registers ds m
    | .ok (some (n, v)) => runDefs registers ds (dictInsert m n v)

/-- `map_registers(unit_id, function, registers)` against a
configuration table: look up the unit by its decimal string key (falsy
entries behave like absent ones), then the function, then run the
definition list. -/
def map_registers (unit_id function : Nat) (registers : List Nat)
    (cfg : Config) : Except MapErr (List (String × PyVal) × Option String) :=
  match lookupStr cfg.units (toString unit_id) with
  | none => .ok ([], none)
  | some unit_cfg =>
    if unit_cfg.falsy then .ok ([], none)
    else
      match lookupStr (unit_cfg.functions.getD []) (toString function) with
      | none => .ok ([], unit_cfg.name)
      | some func_cfg =>
        if func_cfg.falsy then .ok ([], unit_cfg.name)
        else
          match runDefs registers (func_cfg.registers_by_index.getD []) [] with
          | .error e => .error e
          | .ok m => .ok (m, unit_cfg.name)

/-- The list of register definitions the mapping loop actually iterates
over: empty whenever any lookup falls through. -/
def selectedDefs (cfg : Config) (unit_id function : Nat) : List RegDef :=
  match lookupStr cfg.units (toString unit_id) with
  | none => []
  | some unit_cfg =>
    if unit_cfg.falsy then []
    else
      match lookupStr (unit_cfg.functions.getD []) (toString function) with
      | none => []
      | some func_cfg =>
        if func_cfg.falsy then []
        else func_cfg.registers_by_index.getD []

/-- A definition whose data does not fit in the register list: the
starting index is out of range, or the definition is a float32 needing
`index + 1` in range as well. -/
def outOfRange (rd : RegDef) (registers : List Nat) : Bool :=
  match rd.index with
  | none => false
  | some idx =>
    registers.length ≤ idx ||
      (rd.datatype.getD "uint16" = "float32" && registers.length ≤ idx + 1)

/-- C5: float32 word-order correctness on the bit pattern of `1.0`
(`0x3F800000`): the word/byte layouts `ABCD` on `(0x3F80, 0x0000)`,
`CDAB` on `(0x0000, 0x3F80)`, `BADC` on `(0x803F, 0x0000)` and `DCBA` on
`(0x0000, 0x803F)` all reassemble to the pattern `0x3F800000` and decode
to the value 1. -/
theorem c5_float32_word_orders :
    regs_to_float32 0x3F80 0x0000 "ABCD" = .num 1 ∧
    regs_to_float32 0x0000 0x3F80 "CDAB" = .num 1 ∧
    regs_to_float32 0x803F 0x0000 "BADC" = .num 1 ∧
    regs_to_float32 0x0000 0x803F "DCBA" = .num 1 := by
  have h1 : regs_to_float32 0x3F80 0x0000 "ABCD" = float32OfBits 0x3F800000 := rfl
  have h2 : regs_to_float32 0x0000 0x3F80 "CDAB" = float32OfBits 0x3F800000 := rfl
  have h3 : regs_to_float32 0x803F 0x0000 "BADC" = float32OfBits 0x3F800000 := rfl
  have h4 : regs_to_float32 0x0000 0x803F "DCBA" = float32OfBits 0x3F800000 := rfl
  refine ⟨?_, ?_, ?_, ?_⟩ <;> simp only [h1, h2, h3, h4] <;>
    norm_num [float32OfBits]

theorem lookupStr_cons {α : Type} (p : String × α) (t : List (String × α))
    (key : String) :
    lookupStr (p :: t) key = if p.1 = key then some p.2 else lookupStr t key := rfl

theorem any_key_of_not_mem {m : List (String × PyVal)} {k : String}
    (h : m.any (fun p => p.1 = k) = false) : ∀ p ∈ m, p.1 ≠ k := by
  intro p hp hk
  have htrue : m.any (fun p => p.1 = k) = true :=
    List.any_eq_true.mpr ⟨p, hp, decide_eq_true hk⟩
  rw [h] at htrue
  cases htrue

theorem lookupStr_map_update (k : String) (v : PyVal) :
    ∀ m : List (String × PyVal), m.any (fun p => p.1 = k) = true →
      lookupStr (m.map (fun p => if p.1 = k then (k, v) else p)) k = some v
  | [], h => by simp at h
  | p :: t, h => by
    rw [List.map_cons]
    by_cases hp : p.1 = k
    · rw [if_pos hp, lookupStr_cons]
      simp
    · rw [if_neg hp, lookupStr_cons, if_neg hp]
      have ht : t.any (fun p => p.1 = k) = true := by
        rcases List.any_eq_true.mp h with ⟨x, hx, hpx⟩
        rcases List.mem_cons.mp hx with rfl | hxt
        · exact absurd (of_decide_eq_true hpx) hp
        · exact List.any_eq_true.mpr ⟨x, hxt, hpx⟩
      exact lookupStr_map_update k v t ht

theorem lookupStr_append_single (k : String) (v : PyVal) :
    ∀ m : List (String × PyVal), m.any (fun p => p.1 = k) = false →
      lookupStr (m ++ [(k, v)]) k = some v
  | [], _ => by simp [lookupStr]
  | p :: t, h => by
    have hp : p.1 ≠ k := any_key_of_not_mem h p (by simp)
    have ht : t.any (fun p => p.1 = k) = false := by
      cases hany : t.any (fun p => p.1 = k) with
      | false => rfl
      | true =>
        rcases List.any_eq_true.mp hany with ⟨x, hx, hpx⟩
        exact absurd (of_decide_eq_true hpx) (any_key_of_not_mem h x (by simp [hx]))
    rw [List.cons_append, lookupStr_cons, if_neg hp]
    exact lookupStr_append_single k v t ht

theorem lookupStr_dictInsert_self (m : List (String × PyVal)) (k : String)
    (v : PyVal) : lookupStr (dictInsert m k v) k = some v := by
  unfold dictInsert
  cases hany : m.any (fun p => p.1 = k) with
  | true =>
    rw [if_pos rfl]
    exact lookupStr_map_update k v m hany
  | false =>
    rw [if_neg Bool.false_ne_true]
    exact lookupStr_append_single k v m hany

theorem lookupStr_map_update_ne (k k' : String) (v : PyVal) (hne : k' ≠ k) :
    ∀ m : List (String × PyVal),
      lookupStr (m.map (fun p => if p.1 = k then (k, v) else p)) k' =
        lookupStr m k'
  | [] => rfl
  | p :: t => by
    rw [List.map_cons]
    by_cases hp : p.1 = k
    · rw [if_pos hp, lookupStr_cons, lookupStr_cons,
        if_neg (show ¬(k, v).1 = k' from fun h => hne h.symm),
        if_neg (show ¬p.1 = k' from by rw [hp]; exact fun h => hne h.symm)]
      exact lookupStr_map_update_ne k k' v hne t
    · rw [if_neg hp, lookupStr_cons, lookupStr_cons]
      by_cases hp' : p.1 = k'
      · rw [if_pos hp', if_pos hp']
      · rw [if_neg hp', if_neg hp']
        exact lookupStr_map_update_ne k k' v hne t

theorem lookupStr_append_single_ne (k k' : String) (v : PyVal) (hne : k' ≠ k) :
    ∀ m : List (String × PyVal), lookupStr (m ++ [(k, v)]) k' = lookupStr m k'
  | [] => by
    rw [List.nil_append, lookupStr_cons,
      if_neg (show ¬(k, v).1 = k' from fun h => hne h.symm)]
  | p :: t => by
    rw [List.cons_append, lookupStr_cons, lookupStr_cons]
    by_cases hp : p.1 = k'
    · rw [if_pos hp, if_pos hp]
    · rw [if_neg hp, if_neg hp]
      exact lookupStr_append_single_ne k k' v hne t

theorem lookupStr_dictInsert_ne (m : List (String × PyVal)) (k k' : String)
    (v : PyVal) (hne : k' ≠ k) :
    lookupStr (dictInsert m k v) k' = lookupStr m k' := by
  unfold dictInsert
  cases hany : m.any (fun p => p.1 = k) with
  | true =>
    rw [if_pos rfl]
    exact lookupStr_map_update_ne k k' v hne m
  | false =>
    rw [if_neg Bool.false_ne_true]
    exact lookupStr_append_single_ne k k' v hne m

theorem runDefs_cons (registers : List Nat) (d : RegDef) (ds : List RegDef)
    (m : List (String × PyVal)) :
    runDefs registers (d :: ds) m =
      match processDef d registers with
      | .error e => .error e
      | .ok none => runDefs registers ds m
      | .ok (some (n, v)) => runDefs registers ds (dictInsert m n v) := rfl

theorem runDefs_append (registers : List Nat) :
    ∀ (l1 l2 : List RegDef) (m : List (String × PyVal)),
      runDefs registers (l1 ++ l2) m =
        match runDefs registers l1 m with
        | .error e => .error e
        | .ok m1 => runDefs registers l2 m1
  | [], l2, m => rfl
  | d :: t, l2, m => by
    rw [List.cons_append, runDefs_cons, runDefs_cons]
    cases processDef d registers with
    | error e => rfl
    | ok r =>
      cases r with
      | none => exact runDefs_append registers t l2 m
      | some p => exact runDefs_append registers t l2 (dictInsert m p.1 p.2)

theorem runDefs_isOk (registers : List Nat) :
    ∀ (l : List RegDef) (m : List (String × PyVal)),
      (∀ d ∈ l, (processDef d registers).isOk) →
      ∃ m', runDefs registers l m = .ok m'
  | [], m, _ => ⟨m, rfl⟩
  | d :: t, m, h => by
    have hd := h d (by simp)
    have ht : ∀ d' ∈ t, (processDef d' registers).isOk :=
      fun d' hd' => h d' (by simp [hd'])
    rw [runDefs_cons]
    cases hp : processDef d registers with
    | error e => rw [hp] at hd; simp [Except.isOk, Except.toBool] at hd
    | ok r =>
      cases r with
      | none => exact runDefs_isOk registers t m ht
      | some p => exact runDefs_isOk registers t (dictInsert m p.1 p.2) ht

theorem runDefs_error (registers : List Nat) :
    ∀ (l : List RegDef) (m : List (String × PyVal)) (e : MapErr),
      runDefs registers l m = .error e →
      ∃ d ∈ l, processDef d registers = .error e
  | [], m, e, h => by simp [runDefs] at h
  | d :: t, m, e, h => by
    rw [runDefs_cons] at h
    cases hp : processDef d registers with
    | error e' =>
      rw [hp] at h
      cases h
      exact ⟨d, by simp, hp⟩
    | ok r =>
      rw [hp] at h
      cases r with
      | none =>
        obtain ⟨d', hd', he⟩ := runDefs_error registers t m e h
        exact ⟨d', by simp [hd'], he⟩
      | some p =>
        obtain ⟨d', hd', he⟩ := runDefs_error registers t (dictInsert m p.1 p.2) e h
        exact ⟨d', by simp [hd'], he⟩

theorem runDefs_skip (registers : List Nat) (d : RegDef)
    (hd : processDef d registers = .ok none) :
    ∀ (l1 l2 : List RegDef) (m : List (String × PyVal)),
      runDefs registers (l1 ++ d :: l2) m = runDefs registers (l1 ++ l2) m
  | [], l2, m => by
    rw [List.nil_append, List.nil_append, runDefs_cons, hd]
  | d' :: t, l2, m => by
    rw [List.cons_append, List.cons_append, runDefs_cons, runDefs_cons]
    cases processDef d' registers with
    | error e => rfl
    | ok r =>
      cases r with
      | none => exact runDefs_skip registers d hd t l2 m
      | some p => exact runDefs_skip registers d hd t l2 (dictInsert m p.1 p.2)

theorem runDefs_untouched (registers : List Nat) (n : String) :
    ∀ (l : List RegDef) (m m' : List (String × PyVal)),
      (∀ d ∈ l, ∀ v, processDef d registers ≠ .ok (some (n, v))) →
      runDefs registers l m = .ok m' →
      lookupStr m' n = lookupStr m n
  | [], m, m', _, h => by
    cases h
    rfl
  | d :: t, m, m', hno, h => by
    rw [runDefs_cons] at h
    cases hp : processDef d registers with
    | error e => rw [hp] at h; cases h
    | ok r =>
      rw [hp] at h
      cases r with
      | none =>
        exact runDefs_untouched registers n t m m'
          (fun d' hd' => hno d' (by simp [hd'])) h
      | some p =>
        obtain ⟨n', v⟩ := p
        have hne : n ≠ n' := by
          intro hcontra
          exact hno d (by simp) v (by rw [hp, hcontra])
        rw [runDefs_untouched registers n t (dictInsert m n' v) m'
          (fun d' hd' => hno d' (by simp [hd'])) h]
        exact lookupStr_dictInsert_ne m n' n v hne

theorem processDef_isOk (rd : RegDef) (registers : List Nat)
    (hi : rd.index.isSome) (hn : rd.name.isSome) :
    (processDef rd registers).isOk := by
  obtain ⟨idx, hidx⟩ := Option.isSome_iff_exists.mp hi
  obtain ⟨nm, hname⟩ := Option.isSome_iff_exists.mp hn
  simp only [processDef, hidx, hname]
  split_ifs <;> simp [Except.isOk, Except.toBool]

theorem processDef_error_missing (rd : RegDef) (registers : List Nat)
    (e : MapErr) (h : processDef rd registers = .error e) :
    rd.index = none ∨ rd.name = none := by
  by_contra hc
  push_neg at hc
  have hok := processDef_isOk rd registers
    (Option.isSome_iff_ne_none.mpr hc.1) (Option.isSome_iff_ne_none.mpr hc.2)
  rw [h] at hok
  simp [Except.isOk, Except.toBool] at hok

theorem processDef_skip (rd : RegDef) (registers : List Nat)
    (hn : rd.name.isSome) (hoor : outOfRange rd registers = true) :
    processDef rd registers = .ok none := by
  obtain ⟨nm, hname⟩ := Option.isSome_iff_exists.mp hn
  cases hidx : rd.index with
  | none => simp [outOfRange, hidx] at hoor
  | some idx =>
    simp only [outOfRange, hidx, Bool.or_eq_true, Bool.and_eq_true,
      decide_eq_true_eq] at hoor
    simp only [processDef, hidx, hname]
    rcases hoor with h | ⟨hdt, h⟩
    · rw [if_pos h]
    · by_cases hle : registers.length ≤ idx
      · rw [if_pos hle]
      · rw [if_neg hle, hdt, if_neg (by decide : ¬("float32" : String) = "uint16"),
          if_pos rfl, if_pos h]

theorem map_registers_error_iff (unit_id function : Nat) (registers : List Nat)
    (cfg : Config) (e : MapErr) :
    map_registers unit_id function registers cfg = .error e ↔
      runDefs registers (selectedDefs cfg unit_id function) [] = .error e := by
  unfold map_registers selectedDefs
  cases lookupStr cfg.units (toString unit_id) with
  | none => simp [runDefs]
  | some u =>
    by_cases hf : u.falsy
    · simp [hf, runDefs]
    · simp only [hf, if_false, Bool.false_eq_true]
      cases lookupStr (u.functions.getD []) (toString function) with
      | none => simp [runDefs]
      | some f =>
        by_cases hff : f.falsy
        · simp [hff, runDefs]
        · simp only [hff, if_false, Bool.false_eq_true]
          cases runDefs registers (f.registers_by_index.getD []) [] with
          | error e' => simp
          | ok m => simp

theorem map_registers_ok_of_runDefs (unit_id function : Nat)
    (registers : List Nat) (cfg : Config) (m : List (String × PyVal))
    (hne : selectedDefs cfg unit_id function ≠ [])
    (hrun : runDefs registers (selectedDefs cfg unit_id function) [] = .ok m) :
    ∃ dn, map_registers unit_id function registers cfg = .ok (m, dn) := by
  unfold selectedDefs at hne hrun
  unfold map_registers
  cases hu : lookupStr cfg.units (toString unit_id) with
  | none => rw [hu] at hne; exact absurd rfl hne
  | some u =>
    rw [hu] at hne hrun
    by_cases hf : u.falsy
    · simp [hf] at hne
    · simp only [hf, if_false, Bool.false_eq_true] at hne hrun ⊢
      cases hfn : lookupStr (u.functions.getD []) (toString function) with
      | none => rw [hfn] at hne; exact absurd rfl hne
      | some f =>
        rw [hfn] at hne hrun
        by_cases hff : f.falsy
        · simp [hff] at hne
        · simp only [hff, if_false, Bool.false_eq_true] at hne hrun ⊢
          rw [hrun]
          exact ⟨u.name, rfl⟩

/-- C4: failure semantics of the mapper.  If every definition in the
reached list has its `index` and `name` fields, the mapper returns
without raising, and any out-of-range definition (index, or index + 1
for float32, beyond the register count) can be deleted from the reached
list without changing the result of the loop — it contributes no entry
while all other definitions still populate theirs.  Conversely the
mapper only ever raises when some reached definition is missing `index`
or `name`. -/
theorem c4_mapper_failure_semantics (unit_id function : Nat)
    (registers : List Nat) (cfg : Config) :
    ((∀ d ∈ selectedDefs cfg unit_id function, d.index.isSome ∧ d.name.isSome) →
      (∃ p, map_registers unit_id function registers cfg = .ok p) ∧
      (∀ l1 d l2, selectedDefs cfg unit_id function = l1 ++ d :: l2 →
        outOfRange d registers = true →
        ∀ m, runDefs registers (l1 ++ d :: l2) m = runDefs registers (l1 ++ l2) m)) ∧
    (∀ e, map_registers unit_id function registers cfg = .error e →
      ∃ d ∈ selectedDefs cfg unit_id function, d.index = none ∨ d.name = none) := by
  constructor
  · intro hfields
    constructor
    · obtain ⟨m, hrun⟩ := runDefs_isOk registers (selectedDefs cfg unit_id function) []
        (fun d hd => processDef_isOk d registers (hfields d hd).1 (hfields d hd).2)
      cases hm : map_registers unit_id function registers cfg with
      | ok p => exact ⟨p, rfl⟩
      | error e =>
        rw [(map_registers_error_iff unit_id function registers cfg e).mp hm] at hrun
        cases hrun
    · intro l1 d l2 hsel hoor m
      have hd : processDef d registers = .ok none :=
        processDef_skip d registers
          (hfields d (by rw [hsel]; simp)).2 hoor
      exact runDefs_skip registers d hd l1 l2 m
  · intro e hm
    obtain ⟨d, hd, he⟩ := runDefs_error registers _ [] e
      ((map_registers_error_iff unit_id function registers cfg e).mp hm)
    exact ⟨d, hd, processDef_error_missing d registers e he⟩

/-- Concrete configuration for the C4 witness: unit "2", function "3",
one in-range and one out-of-range definition. -/
def cfgC4 : Config :=
  { units := [("2",
      { name := some "meter",
        functions := some [("3",
          { registers_by_index := some
              [{ index := some 0, name := some "a" },
               { index := some 5, name := some "b" }] })] })] }

/-- C4 witness: against a one-register frame, the configuration with an
out-of-range second definition maps without raising. -/
theorem c4_mapper_failure_semantics_witness :
    ∃ p, map_registers 2 3 [7] cfgC4 = .ok p :=
  ((c4_mapper_failure_semantics 2 3 [7] cfgC4).1 (by decide)).1

/-- C7: a unit id whose decimal string form is not a key of the unit
table maps to an empty mapping and no device name, without raising. -/
theorem c7_unconfigured_unit (unit_id function : Nat) (registers : List Nat)
    (cfg : Config) (h : lookupStr cfg.units (toString unit_id) = none) :
    map_registers unit_id function registers cfg = .ok ([], none) := by
  unfold map_registers
  rw [h]

/-- C7 witness: unit 9 against the empty configuration. -/
theorem c7_unconfigured_unit_witness :
    map_registers 9 3 [1, 2] { units := [] } = .ok ([], none) :=
  c7_unconfigured_unit 9 3 [1, 2] { units := [] } rfl

/-- C10: a unit id that is present in the unit table but bound to a
falsy (empty) configuration object is treated exactly like an absent
unit: empty mapping, no device name. -/
theorem c10_falsy_unit (unit_id function : Nat) (registers : List Nat)
    (cfg : Config) (u : UnitCfg)
    (hu : lookupStr cfg.units (toString unit_id) = some u)
    (hf : u.falsy = true) :
    map_registers unit_id function registers cfg = .ok ([], none) := by
  unfold map_registers
  rw [hu]
  simp [hf]

/-- C10 witness: unit 7 bound to the empty unit object. -/
theorem c10_falsy_unit_witness :
    map_registers 7 3 [1] { units := [("7", {})] } = .ok ([], none) :=
  c10_falsy_unit 7 3 [1] { units := [("7", {})] } {} rfl rfl

/-- C8: last-wins on duplicate names.  If the reached definition list
splits as `l1 ++ d1 :: (l2 ++ d2 :: l3)` where `d1` and `d2` both
produce a value for the same name `n`, every definition processes
without raising, and no definition after `d2` produces a value for `n`,
then the returned mapping binds `n` to the value of `d2`, the later
definition. -/
theorem c8_last_wins (unit_id function : Nat) (registers : List Nat)
    (cfg : Config) (l1 l2 l3 : List RegDef) (d1 d2 : RegDef) (n : String)
    (v1 v2 : PyVal)
    (hsel : selectedDefs cfg unit_id function = l1 ++ d1 :: (l2 ++ d2 :: l3))
    (hok : ∀ d ∈ selectedDefs cfg unit_id function, (processDef d registers).isOk)
    (h1 : processDef d1 registers = .ok (some (n, v1)))
    (h2 : processDef d2 registers = .ok (some (n, v2)))
    (h3 : ∀ d ∈ l3, ∀ v, processDef d registers ≠ .ok (some (n, v))) :
    ∃ m dn, map_registers unit_id function registers cfg = .ok (m, dn) ∧
      lookupStr m n = some v2 := by
  obtain ⟨mfin, hrun⟩ :=
    runDefs_isOk registers (selectedDefs cfg unit_id function) [] hok
  have hne : selectedDefs cfg unit_id function ≠ [] := by
    rw [hsel]
    simp
  obtain ⟨dn, hmap⟩ :=
    map_registers_ok_of_runDefs unit_id function registers cfg mfin hne hrun
  refine ⟨mfin, dn, hmap, ?_⟩
  rw [hsel] at hrun
  rw [runDefs_append] at hrun
  cases hr1 : runDefs registers l1 [] with
  | error e => rw [hr1] at hrun; cases hrun
  | ok mA =>
    rw [hr1] at hrun
    dsimp only at hrun
    rw [runDefs_cons, h1] at hrun
    dsimp only at hrun
    rw [runDefs_append] at hrun
    cases hr2 : runDefs registers l2 (dictInsert mA n v1) with
    | error e => rw [hr2] at hrun; cases hrun
    | ok mB =>
      rw [hr2] at hrun
      dsimp only at hrun
      rw [runDefs_cons, h2] at hrun
      dsimp only at hrun
      rw [runDefs_untouched registers n l3 (dictInsert mB n v2) mfin h3 hrun]
      exact lookupStr_dictInsert_self mB n v2

/-- Concrete configuration for the C8 witness: two definitions with the
same output name `x`, reading registers 0 and 1. -/
def cfgC8 : Config :=
  { units := [("1",
      { name := some "dev",
        functions := some [("3",
          { registers_by_index := some
              [{ index := some 0, name := some "x" },
               { index := some 1, name := some "x" }] })] })] }

/-- C8 witness: against registers `[10, 30]`, the mapping binds `x` to
30, the value computed from the second definition. -/
theorem c8_last_wins_witness :
    ∃ m dn, map_registers 1 3 [10, 30] cfgC8 = .ok (m, dn) ∧
      lookupStr m "x" = some (PyVal.num 30) := by
  have h := c8_last_wins 1 3 [10, 30] cfgC8 [] [] []
    { index := some 0, name := some "x" }
    { index := some 1, name := some "x" } "x" (PyVal.num 10) (PyVal.num 30)
    (by rfl) (by decide)
    (by simp [processDef, PyVal.mulScale])
    (by simp [processDef, PyVal.mulScale])
    (by simp)
  exact h

end ModbusBridge
